import Mathlib

/-!
Verification of the dir2text file-discovery engine.

This file gives a shallow embedding of the discovery core of the repository
(mainly find_files_bfs, get_ignore_matchers and resolve_paths from
src/dir2text/_util.py) and proves or refutes the frozen claims about it.

Modelling conventions:
- A compiled ignore matcher (the value returned by parse_gitignore, a
  third-party library the code treats as an opaque callable) is embedded as
  an opaque function Matcher := String -> Bool, exactly as the code consumes it.
- The filesystem is a finite tree FSEntry.  A directory node carries the
  compiled matcher lists of its own .gitignore / .dir2textignore files (empty
  lists when the files are absent, mirroring get_ignore_matchers), a readable
  flag (false models os.scandir raising PermissionError, which the code
  catches and turns into a skip), and its children in scandir enumeration
  order.
- Paths: the traversal root has absolute path string rootAbs; an entry at
  component path comps (relative to the root) has absolute path string
  joinPath rootAbs comps and relative path string relString comps, matching
  str(entry_path) and str(entry_path.relative_to(directory)).
- The ancestors of the traversal root (walked by the seeding loop of
  find_files_bfs) are passed as anc : List (List Matcher x List Matcher),
  ordered from the root's parent upward, each pair being that ancestor
  directory's (gitignore, dir2textignore) compiled matcher lists.
- The BFS while-loop is embedded with an explicit fuel argument so that the
  function is structurally recursive and kernel-evaluable; find_files_bfs
  supplies fuel sizeQueue + 1, which is proved ample (the queue measure
  strictly decreases every iteration).
- sorted(matches) sorts pathlib.Path values; on current CPython (3.12+) Path
  ordering is ordinary string comparison of str(path), embedded here as the
  lexicographic String order on the absolute path strings (stable insertion
  sort models the stable built-in sort; only the order matters after
  relativising, since all entries share the absolute root prefix).
- fnmatch.fnmatch is embedded over the characters of name and pattern with
  the stdlib semantics: * and ? wildcards (both cross separators), character
  classes with ranges and ! negation, an unterminated class treated as a
  literal bracket, whole-string matching, posix case behaviour (identity).
-/

namespace Dir2Text

/-- A compiled ignore-file matcher: the opaque callable the code receives from
parse_gitignore and applies to absolute path strings. -/
abbrev Matcher := String → Bool

/-- The configuration record taken by find_files_bfs (extension, include and
exclude patterns, lock-file flag, per-dialect respect flags). -/
structure Config where
  extension : Option String
  includePatterns : List String
  excludePatterns : List String
  excludeLockFiles : Bool
  respectGitignore : Bool
  respectDir2textignore : Bool

/-- Python str.endswith, as a suffix test on the character data. -/
def strEndsWith (s suffix : String) : Bool :=
  suffix.data.isSuffixOf s.data

/-- String prefix test on the character data (used to express that one
relative path lies below another). -/
def strHasPre (p s : String) : Bool :=
  p.data.isPrefixOf s.data

/-- The string of a relative path with components comps, as produced by
str(path.relative_to(directory)): components joined by the separator. -/
def relString : List String → String
  | [] => ""
  | [c] => c
  | c :: cs => c ++ "/" ++ relString cs

/-- Absolute path string of the entry at component path comps below the
directory whose absolute path string is base. -/
def joinPath (base : String) (comps : List String) : String :=
  comps.foldl (fun acc c => acc ++ "/" ++ c) base

/-- Membership in a character-class body as fnmatch compiles it: a-b ranges,
other characters literal. -/
def matchClassChars : List Char → Char → Bool
  | [], _ => false
  | lo :: '-' :: hi :: rest, c =>
      (decide (lo ≤ c) && decide (c ≤ hi)) || matchClassChars rest c
  | x :: rest, c => (x == c) || matchClassChars rest c

/-- Scan for the closing bracket of a character class; returns the class body
and the remaining pattern, with a proof that the remainder is shorter. -/
def classBrk : (l : List Char) → Option (List Char × { rest : List Char // rest.length < l.length })
  | [] => none
  | ']' :: rest => some ([], ⟨rest, by simp⟩)
  | c :: rest =>
      match classBrk rest with
      | none => none
      | some (body, ⟨after, h⟩) =>
          some (c :: body, ⟨after, by exact Nat.lt_succ_of_lt h⟩)

/-- Body of a character class after the optional leading negation: a leading
closing bracket is a literal member, as in fnmatch.translate. -/
def classAfterNeg (neg : Bool) (l : List Char) :
    Option (Bool × List Char × { rest : List Char // rest.length < l.length }) :=
  match l with
  | ']' :: t =>
      match classBrk t with
      | none => none
      | some (body, ⟨after, h⟩) =>
          some (neg, ']' :: body, ⟨after, by exact Nat.lt_succ_of_lt h⟩)
  | l₂ =>
      match classBrk l₂ with
      | none => none
      | some (body, rest) => some (neg, body, rest)

/-- Split a character class at the head of l (the characters after the opening
bracket): negation flag, body, remaining pattern.  none when no closing
bracket exists, in which case the opening bracket is a literal. -/
def classSplit (l : List Char) :
    Option (Bool × List Char × { rest : List Char // rest.length < l.length }) :=
  match l with
  | '!' :: t =>
      match classAfterNeg true t with
      | none => none
      | some (neg, body, ⟨after, h⟩) =>
          some (neg, body, ⟨after, by exact Nat.lt_succ_of_lt h⟩)
  | l₂ => classAfterNeg false l₂

/-- fnmatch pattern matching over characters, pattern against string.  Every
recursive step shrinks pattern length plus string length, so the fuel
supplied by fnmatch (that sum plus one) never runs out; the fuel only makes
the recursion structural. -/
def fnmatchGo : Nat → List Char → List Char → Bool
  | 0, _, _ => false
  | _ + 1, [], [] => true
  | _ + 1, [], _ :: _ => false
  | fuel + 1, '*' :: ps, [] => fnmatchGo fuel ps []
  | fuel + 1, '*' :: ps, c :: cs =>
      fnmatchGo fuel ps (c :: cs) || fnmatchGo fuel ('*' :: ps) cs
  | _ + 1, '?' :: _, [] => false
  | fuel + 1, '?' :: ps, _ :: cs => fnmatchGo fuel ps cs
  | _ + 1, '[' :: _, [] => false
  | fuel + 1, '[' :: ps, c :: cs =>
      match classSplit ps with
      | some (neg, body, rest) =>
          (matchClassChars body c != neg) && fnmatchGo fuel rest.1 cs
      | none => ('[' == c) && fnmatchGo fuel ps cs
  | _ + 1, _ :: _, [] => false
  | fuel + 1, p :: ps, c :: cs => (p == c) && fnmatchGo fuel ps cs

/-- fnmatch.fnmatch(name, pattern) from the stdlib, as the code calls it on
the relative path string. -/
def fnmatch (name pattern : String) : Bool :=
  fnmatchGo (pattern.data.length + name.data.length + 1) pattern.data name.data

/-- A node of the filesystem tree.  Directories carry the compiled matchers of
their own ignore files per dialect, a readable flag, and children in scandir
enumeration order. -/
inductive FSEntry where
  | file (name : String)
  | dir (name : String) (readable : Bool) (ownGit ownD2t : List Matcher)
        (children : List FSEntry)

def FSEntry.name : FSEntry → String
  | .file n => n
  | .dir n _ _ _ _ => n

def isDirEntry : FSEntry → Bool
  | .file _ => false
  | .dir _ _ _ _ _ => true

mutual

def FSEntry.size : FSEntry → Nat
  | .file _ => 1
  | .dir _ _ _ _ children => 1 + sizeEntries children

def sizeEntries : List FSEntry → Nat
  | [] => 0
  | e :: es => FSEntry.size e + sizeEntries es

end

/-- A name a real directory entry can have: nonempty and free of the path
separator (guaranteed by the operating system for scandir entries). -/
def goodName (s : String) : Bool :=
  !(s == "") && !(s.data.contains '/')

mutual

/-- Well-formedness of one entry: its name is a real entry name and its
subtree is well-formed. -/
def wfEntry : FSEntry → Bool
  | .file n => goodName n
  | .dir n _ _ _ cs => goodName n && wfEntries cs

/-- Well-formedness of a sibling list: every entry well-formed and sibling
names pairwise distinct (as on a real filesystem). -/
def wfEntries : List FSEntry → Bool
  | [] => true
  | e :: es =>
      wfEntry e && !((es.map FSEntry.name).contains e.name) && wfEntries es

end

/-- The code's rule-set test for one dialect (lines 277-291 and 319-333 of
_util.py): true when any compiled matcher of the dialect matches the absolute
path. -/
def testDialect (ms : List Matcher) (path : String) : Bool :=
  ms.any fun m => m path

/-- The combined ignore decision of both dialects, guarded by the respect
flags, applied to an absolute path string; used verbatim for pruning
subdirectories and as the final gate on files. -/
def ignoredByRules (cfg : Config) (git d2t : List Matcher) (absPath : String) : Bool :=
  (cfg.respectGitignore && testDialect git absPath) ||
  (cfg.respectDir2textignore && testDialect d2t absPath)

/-- Extension of an inherited matcher list with a directory's own matchers,
guarded by the dialect's respect flag (the combined_matchers computation). -/
def extendM (respect : Bool) (inherited own : List Matcher) : List Matcher :=
  inherited ++ (if respect then own else [])

/-- The extension-filter failure test: if extension and not
entry.name.endswith(extension).  A falsy extension (None) never fails. -/
def extFails : Option String → String → Bool
  | none, _ => false
  | some e, name => !(strEndsWith name e)

/-- The five file gates of find_files_bfs in source order with short-circuit:
lock-file suffix, extension, include patterns, exclude patterns, ignore
rule-sets.  Arguments: file name, relative path string, absolute path string,
combined matchers of the containing directory. -/
def admitFile (cfg : Config) (name relPath absPath : String)
    (git d2t : List Matcher) : Bool :=
  if cfg.excludeLockFiles && strEndsWith name ".lock" then false
  else if extFails cfg.extension name then false
  else if !cfg.includePatterns.isEmpty &&
          !(cfg.includePatterns.any fun pat => fnmatch relPath pat) then false
  else if cfg.excludePatterns.any (fun pat => fnmatch relPath pat) then false
  else if ignoredByRules cfg git d2t absPath then false
  else true

/-- The seeding walk of find_files_bfs (lines 239-249): starting at the
traversal root itself and walking to the filesystem root, extend the root
matcher lists with each directory's own matchers, per respected dialect.
chain is the (gitignore, dir2textignore) matcher pair of the traversal root
followed by those of its ancestors, parent first. -/
def rootMatchers (cfg : Config) (chain : List (List Matcher × List Matcher)) :
    List Matcher × List Matcher :=
  if cfg.respectGitignore || cfg.respectDir2textignore then
    ((if cfg.respectGitignore then (chain.map Prod.fst).flatten else []),
     (if cfg.respectDir2textignore then (chain.map Prod.snd).flatten else []))
  else ([], [])

/-- One queued BFS node: the directory's component path below the root, its
unpacked fields, and the accumulated matcher lists it inherited when it was
enqueued. -/
structure DirTask where
  pfx : List String
  readable : Bool
  ownGit : List Matcher
  ownD2t : List Matcher
  children : List FSEntry
  git : List Matcher
  d2t : List Matcher

/-- The scandir loop body over one directory's entries, given the directory's
combined matcher lists: collects admitted files (in enumeration order) and the
subdirectory tasks to enqueue.  Mirrors lines 268-335: the version-control
metadata directory is skipped by name, ignored subdirectories are pruned
before enqueueing, files pass the five gates. -/
def processEntries (cfg : Config) (rootAbs : String) (pfx : List String)
    (git d2t : List Matcher) : List FSEntry → List (List String) × List DirTask
  | [] => ([], [])
  | .file name :: es =>
      let rest := processEntries cfg rootAbs pfx git d2t es
      (if admitFile cfg name (relString (pfx ++ [name]))
          (joinPath rootAbs (pfx ++ [name])) git d2t then
        (pfx ++ [name]) :: rest.1
      else rest.1, rest.2)
  | .dir name readable ownGit ownD2t children :: es =>
      let rest := processEntries cfg rootAbs pfx git d2t es
      if name = ".git" then rest
      else if ignoredByRules cfg git d2t (joinPath rootAbs (pfx ++ [name])) then rest
      else (rest.1, ⟨pfx ++ [name], readable, ownGit, ownD2t, children, git, d2t⟩ :: rest.2)

/-- Processing of one dequeued directory: the whole body is guarded by the
readable flag (the try/except PermissionError that skips the directory);
otherwise its own matchers are read and appended per respected dialect, and
its entries are scanned. -/
def processTask (cfg : Config) (rootAbs : String) (t : DirTask) :
    List (List String) × List DirTask :=
  if t.readable then
    processEntries cfg rootAbs t.pfx
      (extendM cfg.respectGitignore t.git t.ownGit)
      (extendM cfg.respectDir2textignore t.d2t t.ownD2t)
      t.children
  else ([], [])

def sizeTask (t : DirTask) : Nat := 1 + sizeEntries t.children

def sizeQueue (q : List DirTask) : Nat := (q.map sizeTask).sum

/-- The BFS while-loop: pop the queue head, process it, append the new tasks
at the back.  fuel bounds the number of iterations; find_files_bfs supplies
enough fuel for the loop to run to completion. -/
def bfs (cfg : Config) (rootAbs : String) : Nat → List DirTask → List (List String)
  | 0, _ => []
  | _ + 1, [] => []
  | fuel + 1, t :: rest =>
      let step := processTask cfg rootAbs t
      step.1 ++ bfs cfg rootAbs fuel (rest ++ step.2)

/-- Strict lexicographic comparison of character lists by code point: the
comparison underlying Python string ordering.  An executable counterpart of
the library order on strings. -/
def charsLt : List Char → List Char → Bool
  | [], [] => false
  | [], _ :: _ => true
  | _ :: _, [] => false
  | a :: as, b :: bs => decide (a < b) || (a == b && charsLt as bs)

/-- Comparison of collected component paths by their absolute path strings,
the order in which sorted(matches) arranges the Path values. -/
def pathKeyLe (rootAbs : String) (a b : List String) : Prop :=
  charsLt (joinPath rootAbs b).data (joinPath rootAbs a).data = false

instance (rootAbs : String) : DecidableRel (pathKeyLe rootAbs) :=
  fun a b =>
    inferInstanceAs (Decidable (charsLt (joinPath rootAbs b).data (joinPath rootAbs a).data = false))

/-- The final line of find_files_bfs: sort the matches (a stable sort of the
absolute paths) and relativise each to the root. -/
def sortedOut (rootAbs : String) (l : List (List String)) : List String :=
  (l.insertionSort (pathKeyLe rootAbs)).map relString

/-- find_files_bfs: seed the root matchers by the ancestor walk, run the BFS
from the root directory (given unpacked: readable flag, own matcher lists,
children), sort and relativise.  rootAbs is the resolved absolute path of the
root; anc lists the ancestors' matcher pairs, parent first. -/
def find_files_bfs (cfg : Config) (rootAbs : String)
    (anc : List (List Matcher × List Matcher)) (rootReadable : Bool)
    (rootGit rootD2t : List Matcher) (rootChildren : List FSEntry) : List String :=
  let seed := rootMatchers cfg ((rootGit, rootD2t) :: anc)
  let t0 : DirTask := ⟨[], rootReadable, rootGit, rootD2t, rootChildren, seed.1, seed.2⟩
  sortedOut rootAbs (bfs cfg rootAbs (sizeQueue [t0] + 1) [t0])

mutual

/-- Structural (order of recursion irrelevant after sorting) counterpart of
the traversal: what one entry of a directory with combined matchers git, d2t
contributes.  Aligned with processEntries and processTask: metadata and
ignored directories are pruned, unreadable directories contribute nothing,
files pass the five gates. -/
def collectEntry (cfg : Config) (rootAbs : String) (pfx : List String)
    (git d2t : List Matcher) : FSEntry → List (List String)
  | .file name =>
      if admitFile cfg name (relString (pfx ++ [name]))
          (joinPath rootAbs (pfx ++ [name])) git d2t then
        [pfx ++ [name]]
      else []
  | .dir name readable ownGit ownD2t children =>
      if name = ".git" then []
      else if ignoredByRules cfg git d2t (joinPath rootAbs (pfx ++ [name])) then []
      else if readable then
        collectEntries cfg rootAbs (pfx ++ [name])
          (extendM cfg.respectGitignore git ownGit)
          (extendM cfg.respectDir2textignore d2t ownD2t) children
      else []

def collectEntries (cfg : Config) (rootAbs : String) (pfx : List String)
    (git d2t : List Matcher) : List FSEntry → List (List String)
  | [] => []
  | e :: es =>
      collectEntry cfg rootAbs pfx git d2t e ++
      collectEntries cfg rootAbs pfx git d2t es

end

/-- What one queued task contributes over the rest of the traversal. -/
def taskCollect (cfg : Config) (rootAbs : String) (t : DirTask) : List (List String) :=
  if t.readable then
    collectEntries cfg rootAbs t.pfx
      (extendM cfg.respectGitignore t.git t.ownGit)
      (extendM cfg.respectDir2textignore t.d2t t.ownD2t)
      t.children
  else []

/-- A path specification contains a glob metacharacter (any(char in
path_pattern for char in the wildcard set)). -/
def hasWildcard (s : String) : Bool :=
  s.data.any fun c => c == '*' || c == '?' || c == '[' || c == ']'

/-- resolve_paths from _util.py over a list input: iterate the specs in
order, expanding wildcard specs through the filesystem glob (globFn) and
appending literal specs untouched.  globFn stands for glob.glob. -/
def resolve_paths (globFn : String → List String) (paths : List String) : List String :=
  paths.foldl (fun acc p => acc ++ (if hasWildcard p then globFn p else [p])) []

/-- One parsed ignore-rule line as the specification describes it: a
predicate on candidate paths plus a negation flag. -/
structure IgnoreRule where
  pred : Matcher
  negated : Bool

/-- Last-match-wins evaluation of an ordered rule list: the verdict of the
last rule whose predicate matches, false when none match.  This is the
per-file semantics of a compiled ignore file. -/
def lastMatchVerdict (rules : List IgnoreRule) (path : String) : Bool :=
  (rules.foldl (fun acc rule => if rule.pred path then some !rule.negated else acc)
    none).getD false

/-- Compilation of one ignore file's rule list into the opaque matcher the
code receives. -/
def compileRuleFile (rules : List IgnoreRule) : Matcher :=
  fun path => lastMatchVerdict rules path

/-- Follows the words of the specification for the rule-set test: evaluate
all matchers for the dialect in root-to-leaf order and return the result of
the last matcher that matched, not plain any-matched.  Stated over the rule
lists of the dialect's files, concatenated in that order. -/
def testDialectSpec (ruleFiles : List (List IgnoreRule)) (path : String) : Bool :=
  lastMatchVerdict ruleFiles.flatten path

/-- Follows the words of the specification for the seed rule set: built by
walking from the filesystem root down to the traversal root's parent,
collecting every ancestor's ignore files; the root's own files are not
included.  anc is parent-first, so the walk from the top reverses it. -/
def rootMatchersSpec (cfg : Config) (anc : List (List Matcher × List Matcher)) :
    List Matcher × List Matcher :=
  ((if cfg.respectGitignore then (anc.reverse.map Prod.fst).flatten else []),
   (if cfg.respectDir2textignore then (anc.reverse.map Prod.snd).flatten else []))

/-- Sibling lists equal up to reordering of the children of every directory,
at every depth: the same filesystem state presented in different scandir
enumeration orders. -/
inductive EquivL : List FSEntry → List FSEntry → Prop where
  | nil : EquivL [] []
  | file (n : String) {l l' : List FSEntry} :
      EquivL l l' → EquivL (.file n :: l) (.file n :: l')
  | dir (n : String) (r : Bool) (g d : List Matcher) {cs cs' l l' : List FSEntry} :
      EquivL cs cs' → EquivL l l' →
      EquivL (.dir n r g d cs :: l) (.dir n r g d cs' :: l')
  | swap (a b : FSEntry) (l : List FSEntry) : EquivL (a :: b :: l) (b :: a :: l)
  | trans {a b c : List FSEntry} : EquivL a b → EquivL b c → EquivL a c

mutual

/-- Replace the subtree below every unreadable directory by the empty list:
the part of the tree a permission error hides from the traversal. -/
def pruneU : FSEntry → FSEntry
  | .file n => .file n
  | .dir n readable g d cs =>
      if readable then .dir n readable g d (pruneUL cs) else .dir n readable g d []

def pruneUL : List FSEntry → List FSEntry
  | [] => []
  | e :: es => pruneU e :: pruneUL es

end

/-- First subdirectory entry with the given name, unpacked (unique when the
sibling list is well-formed). -/
def findDirChild : List FSEntry → String →
    Option (Bool × List Matcher × List Matcher × List FSEntry)
  | [], _ => none
  | .file _ :: es, c => findDirChild es c
  | .dir n r g d cs :: es, c =>
      if n = c then some (r, g, d, cs) else findDirChild es c

/-- The subdirectory named sname, reached from a processed directory by
descending the component path, is ignored by the active rule set at the
moment its parent is processed.  The descent mirrors the traversal exactly:
the current directory must be readable (processed), its matcher lists are
extended with its own files, and each step must be a non-metadata,
non-ignored subdirectory (otherwise the parent is never processed and the
result is false). -/
def ignoredAt (cfg : Config) (rootAbs : String) :
    List Matcher → List Matcher → Bool → List Matcher → List Matcher →
      List FSEntry → List String → List String → String → Bool
  | _, _, false, _, _, _, _, _, _ => false
  | git, d2t, true, ownGit, ownD2t, children, pfx, [], sname =>
      (children.any fun e => isDirEntry e && (FSEntry.name e == sname)) &&
      ignoredByRules cfg (extendM cfg.respectGitignore git ownGit)
        (extendM cfg.respectDir2textignore d2t ownD2t)
        (joinPath rootAbs (pfx ++ [sname]))
  | git, d2t, true, ownGit, ownD2t, children, pfx, c :: rest, sname =>
      if c = ".git" then false
      else if ignoredByRules cfg (extendM cfg.respectGitignore git ownGit)
          (extendM cfg.respectDir2textignore d2t ownD2t)
          (joinPath rootAbs (pfx ++ [c])) then false
      else
        match findDirChild children c with
        | none => false
        | some (r2, g2, d2M, cs2) =>
            ignoredAt cfg rootAbs
              (extendM cfg.respectGitignore git ownGit)
              (extendM cfg.respectDir2textignore d2t ownD2t)
              r2 g2 d2M cs2 (pfx ++ [c]) rest sname

/-- The default configuration of the command line: no extension filter, no
include or exclude patterns, lock files excluded, both dialects respected. -/
def cfgDefault : Config :=
  ⟨none, [], [], true, true, true⟩

/-- A matcher that matches every path. -/
def mAlways : Matcher := fun _ => true

/-- The two-file rule set refuting the last-match-wins reading of the
rule-set test: a shallower file that ignores everything followed by a deeper
file whose single rule is a matching negation. -/
def c2Files : List (List IgnoreRule) :=
  [[⟨mAlways, false⟩], [⟨mAlways, true⟩]]

/-! Bridging the executable comparison with the library order on strings. -/

theorem charsLt_iff (x : List Char) :
    ∀ y, charsLt x y = true ↔ List.Lex (· < ·) x y := by
  induction x with
  | nil =>
      intro y
      cases y with
      | nil =>
          simp only [charsLt, Bool.false_eq_true, false_iff]
          exact List.Lex.not_nil_right _ _
      | cons b bs => simp [charsLt, List.Lex.nil]
  | cons a as ih =>
      intro y
      cases y with
      | nil =>
          simp only [charsLt, Bool.false_eq_true, false_iff]
          exact List.Lex.not_nil_right _ _
      | cons b bs =>
          simp only [charsLt, Bool.or_eq_true, Bool.and_eq_true,
            decide_eq_true_eq, beq_iff_eq, ih]
          constructor
          · rintro (h | ⟨rfl, h⟩)
            · exact List.Lex.rel h
            · exact List.Lex.cons h
          · intro h
            cases h with
            | cons h => exact Or.inr ⟨rfl, h⟩
            | rel h => exact Or.inl h

theorem strLt_lex (s t : String) :
    s < t ↔ List.Lex (· < ·) s.data t.data := by
  rw [String.lt_iff_toList_lt]
  exact Iff.rfl

theorem charsLt_iff_lt (s t : String) : charsLt s.data t.data = true ↔ s < t :=
  (charsLt_iff _ _).trans (strLt_lex s t).symm

theorem pathKeyLe_iff (rootAbs : String) (a b : List String) :
    pathKeyLe rootAbs a b ↔ joinPath rootAbs a ≤ joinPath rootAbs b := by
  unfold pathKeyLe
  constructor
  · intro h
    by_contra hlt
    rw [not_le] at hlt
    rw [← charsLt_iff_lt] at hlt
    rw [h] at hlt
    exact Bool.noConfusion hlt
  · intro h
    cases hc : charsLt (joinPath rootAbs b).data (joinPath rootAbs a).data with
    | false => rfl
    | true =>
        rw [charsLt_iff_lt] at hc
        exact absurd h (not_le.mpr hc)

theorem joinPath_cons (base c : String) (cs : List String) :
    joinPath base (c :: cs) = base ++ "/" ++ relString (c :: cs) := by
  induction cs generalizing base c with
  | nil => simp [joinPath, relString]
  | cons d ds ih =>
      show joinPath (base ++ "/" ++ c) (d :: ds) = _
      rw [ih]
      show _ = base ++ "/" ++ (c ++ "/" ++ relString (d :: ds))
      simp [String.append_assoc]

theorem lex_append_iff (X : List Char) {A B : List Char} :
    List.Lex (· < ·) (X ++ A) (X ++ B) ↔ List.Lex (· < ·) A B := by
  induction X with
  | nil => exact Iff.rfl
  | cons x xs ih => simpa [List.cons_append, List.Lex.cons_iff] using ih

theorem append_lt_append_iff (p s t : String) : p ++ s < p ++ t ↔ s < t := by
  rw [strLt_lex, strLt_lex, String.data_append, String.data_append]
  exact lex_append_iff p.data

theorem lt_append_of_ne (s t : String) (h : t ≠ "") : s < s ++ t := by
  rw [strLt_lex, String.data_append]
  have hd : t.data ≠ [] := by
    intro he
    exact h (by cases t; simp_all)
  cases ht : t.data with
  | nil => exact absurd ht hd
  | cons c cs =>
      clear ht hd h
      induction s.data with
      | nil => exact List.Lex.nil
      | cons a as ih => exact List.Lex.cons ih

theorem relLe_of_keyLe (rootAbs : String) {a b : List String}
    (h : pathKeyLe rootAbs a b) : relString a ≤ relString b := by
  rw [pathKeyLe_iff] at h
  cases a with
  | nil =>
      rw [String.le_iff_toList_le]
      exact List.nil_le
  | cons x xs =>
      cases b with
      | nil =>
          exfalso
          rw [joinPath_cons] at h
          have hlt : joinPath rootAbs [] < rootAbs ++ "/" ++ relString (x :: xs) := by
            show rootAbs < _
            rw [String.append_assoc]
            apply lt_append_of_ne
            intro he
            have hd := congrArg String.data he
            rw [String.data_append] at hd
            simp at hd
          exact absurd h (not_le.mpr hlt)
      | cons y ys =>
          rw [joinPath_cons, joinPath_cons] at h
          rw [← not_lt]
          intro hlt
          rw [← append_lt_append_iff (rootAbs ++ "/")] at hlt
          exact absurd h (not_le.mpr hlt)

/-! Canonicity of the sorted output. -/

theorem sortedOut_sorted (rootAbs : String) (l : List (List String)) :
    List.Sorted (· ≤ ·) (sortedOut rootAbs l) := by
  haveI : IsTotal (List String) (pathKeyLe rootAbs) :=
    ⟨fun a b => by
      rw [pathKeyLe_iff, pathKeyLe_iff]
      exact le_total _ _⟩
  haveI : IsTrans (List String) (pathKeyLe rootAbs) :=
    ⟨fun a b c h₁ h₂ => by
      rw [pathKeyLe_iff] at h₁ h₂ ⊢
      exact le_trans h₁ h₂⟩
  exact List.Pairwise.map relString (fun _ _ h => relLe_of_keyLe rootAbs h)
    (List.sorted_insertionSort (pathKeyLe rootAbs) l)

theorem sortedOut_perm (rootAbs : String) {l l' : List (List String)}
    (h : l.Perm l') : sortedOut rootAbs l = sortedOut rootAbs l' := by
  apply List.eq_of_perm_of_sorted (r := fun a b : String => a ≤ b)
  · exact (((List.perm_insertionSort _ l).trans h).trans
      (List.perm_insertionSort _ l').symm).map relString
  · exact sortedOut_sorted rootAbs l
  · exact sortedOut_sorted rootAbs l'

theorem mem_sortedOut {rootAbs : String} {l : List (List String)} {out : String} :
    out ∈ sortedOut rootAbs l ↔ ∃ comps ∈ l, relString comps = out := by
  simp [sortedOut, List.mem_map]

/-! The BFS loop computes (a permutation of) the structural collection. -/

theorem sizeQueue_processEntries (cfg : Config) (rootAbs : String)
    (pfx : List String) (git d2t : List Matcher) :
    ∀ es, sizeQueue (processEntries cfg rootAbs pfx git d2t es).2 ≤ sizeEntries es := by
  intro es
  induction es with
  | nil => simp [processEntries, sizeQueue]
  | cons e es ih =>
      cases e with
      | file n =>
          simp only [processEntries, sizeEntries, FSEntry.size]
          omega
      | dir n r g d cs =>
          simp only [processEntries, sizeEntries, FSEntry.size]
          split
          · omega
          · split
            · omega
            · simp only [sizeQueue, List.map_cons, List.sum_cons, sizeTask]
              have : sizeQueue (processEntries cfg rootAbs pfx git d2t es).2 ≤ sizeEntries es := ih
              simp only [sizeQueue] at this
              omega

theorem sizeQueue_processTask (cfg : Config) (rootAbs : String) (t : DirTask) :
    sizeQueue (processTask cfg rootAbs t).2 < sizeTask t := by
  unfold processTask
  split
  · have := sizeQueue_processEntries cfg rootAbs t.pfx
      (extendM cfg.respectGitignore t.git t.ownGit)
      (extendM cfg.respectDir2textignore t.d2t t.ownD2t) t.children
    unfold sizeTask
    omega
  · simp [sizeQueue, sizeTask]

theorem collect_processEntries (cfg : Config) (rootAbs : String) :
    ∀ (es : List FSEntry) (pfx : List String) (git d2t : List Matcher),
      (collectEntries cfg rootAbs pfx git d2t es).Perm
        ((processEntries cfg rootAbs pfx git d2t es).1 ++
          ((processEntries cfg rootAbs pfx git d2t es).2.map
            (taskCollect cfg rootAbs)).flatten) := by
  intro es
  induction es with
  | nil => simp [collectEntries, processEntries]
  | cons e es ih =>
      intro pfx git d2t
      cases e with
      | file n =>
          simp only [collectEntries, collectEntry, processEntries]
          split
          · exact (ih pfx git d2t).cons _
          · simpa using ih pfx git d2t
      | dir n r g d cs =>
          simp only [collectEntries, collectEntry, processEntries]
          split
          · simpa using ih pfx git d2t
          · split
            · simpa using ih pfx git d2t
            · simp only [List.map_cons, List.flatten_cons, taskCollect]
              refine ((ih pfx git d2t).append_left _).trans ?_
              rw [← List.append_assoc, ← List.append_assoc]
              exact List.perm_append_comm.append_right _

theorem bfs_cons (cfg : Config) (rootAbs : String) (fuel : Nat) (t : DirTask)
    (rest : List DirTask) :
    bfs cfg rootAbs (fuel + 1) (t :: rest)
      = (processTask cfg rootAbs t).1 ++
        bfs cfg rootAbs fuel (rest ++ (processTask cfg rootAbs t).2) := rfl

theorem sizeQueue_append (q₁ q₂ : List DirTask) :
    sizeQueue (q₁ ++ q₂) = sizeQueue q₁ + sizeQueue q₂ := by
  simp [sizeQueue]

theorem taskCollect_perm (cfg : Config) (rootAbs : String) (t : DirTask) :
    (taskCollect cfg rootAbs t).Perm
      ((processTask cfg rootAbs t).1 ++
        ((processTask cfg rootAbs t).2.map (taskCollect cfg rootAbs)).flatten) := by
  unfold taskCollect processTask
  split
  · exact collect_processEntries cfg rootAbs t.children t.pfx _ _
  · simp

theorem bfs_perm (cfg : Config) (rootAbs : String) :
    ∀ (fuel : Nat) (q : List DirTask), sizeQueue q < fuel →
      (bfs cfg rootAbs fuel q).Perm ((q.map (taskCollect cfg rootAbs)).flatten) := by
  intro fuel
  induction fuel with
  | zero => intro q h; exact absurd h (Nat.not_lt_zero _)
  | succ f ih =>
      intro q h
      cases q with
      | nil => simp [bfs]
      | cons t rest =>
          rw [bfs_cons]
          have hts := sizeQueue_processTask cfg rootAbs t
          have hq : sizeQueue (rest ++ (processTask cfg rootAbs t).2) < f := by
            rw [sizeQueue_append]
            have hsz : sizeQueue (t :: rest) = sizeTask t + sizeQueue rest := by
              simp [sizeQueue]
            omega
          refine ((ih _ hq).append_left _).trans ?_
          rw [List.map_append, List.flatten_append]
          simp only [List.map_cons, List.flatten_cons]
          refine (List.Perm.append_left _ List.perm_append_comm).trans ?_
          rw [← List.append_assoc]
          exact (taskCollect_perm cfg rootAbs t).symm.append_right _

theorem find_eq_sorted_collect (cfg : Config) (rootAbs : String)
    (anc : List (List Matcher × List Matcher)) (rr : Bool)
    (rg rd : List Matcher) (cs : List FSEntry) :
    find_files_bfs cfg rootAbs anc rr rg rd cs
      = sortedOut rootAbs (taskCollect cfg rootAbs
          ⟨[], rr, rg, rd, cs, (rootMatchers cfg ((rg, rd) :: anc)).1,
            (rootMatchers cfg ((rg, rd) :: anc)).2⟩) := by
  simp only [find_files_bfs]
  apply sortedOut_perm
  have h := bfs_perm cfg rootAbs
    (sizeQueue [(⟨[], rr, rg, rd, cs, (rootMatchers cfg ((rg, rd) :: anc)).1,
      (rootMatchers cfg ((rg, rd) :: anc)).2⟩ : DirTask)] + 1)
    [⟨[], rr, rg, rd, cs, (rootMatchers cfg ((rg, rd) :: anc)).1,
      (rootMatchers cfg ((rg, rd) :: anc)).2⟩] (by omega)
  simpa using h

theorem mem_find (cfg : Config) (rootAbs : String)
    (anc : List (List Matcher × List Matcher)) (rr : Bool)
    (rg rd : List Matcher) (cs : List FSEntry) (out : String) :
    out ∈ find_files_bfs cfg rootAbs anc rr rg rd cs ↔
      ∃ comps ∈ taskCollect cfg rootAbs
          ⟨[], rr, rg, rd, cs, (rootMatchers cfg ((rg, rd) :: anc)).1,
            (rootMatchers cfg ((rg, rd) :: anc)).2⟩, relString comps = out := by
  rw [find_eq_sorted_collect]
  exact mem_sortedOut


/-! Claim C2: the rule-set test. -/

/-- Claim C2 (as stated) is false: the code's per-dialect rule-set test is a
plain any-matched over the compiled per-file matchers, so a deeper file whose
last matching rule is a negation cannot override a shallower file that
ignores the path.  At the concrete rule set c2Files (a shallower
ignore-everything file followed by a deeper all-negating file) the code's
test returns true while the last-match-wins semantics demanded by the claim
returns false. -/
theorem claim_C2_counterexample :
    testDialect (c2Files.map compileRuleFile) "x" = true ∧
      testDialectSpec c2Files "x" = false := by
  constructor <;> rfl

/-- Claim C2 amended: the rule-set test returns true iff some compiled
per-file matcher reports the path ignored; appending deeper files decomposes
as a boolean or (so a deeper file can add ignores but never un-ignore), while
last-match-wins holds within one file: the last rule of a file decides
whenever it matches. -/
theorem claim_C2_any_matched :
    (∀ (files extra : List (List IgnoreRule)) (p : String),
        testDialect ((files ++ extra).map compileRuleFile) p
          = (testDialect (files.map compileRuleFile) p ||
             testDialect (extra.map compileRuleFile) p)) ∧
    (∀ (rules : List IgnoreRule) (r : IgnoreRule) (p : String),
        lastMatchVerdict (rules ++ [r]) p
          = if r.pred p then !r.negated else lastMatchVerdict rules p) := by
  constructor
  · intro files extra p
    simp [testDialect, List.any_append]
  · intro rules r p
    unfold lastMatchVerdict
    rw [List.foldl_append]
    simp only [List.foldl_cons, List.foldl_nil]
    split
    · rfl
    · rfl

/-! Claim C3: the seed rule set. -/

/-- Claim C3 (as stated) is false: the seeding walk of find_files_bfs starts
at the traversal root itself, not at its parent, so the root's own ignore
files already enter the seed rule set.  With no ancestors and a root owning
one gitignore matcher, the code's seed holds one matcher where the walk
described by the claim (filesystem root down to the parent) yields none. -/
theorem claim_C3_counterexample :
    ((rootMatchers cfgDefault [([mAlways], [])]).1).length = 1 ∧
      ((rootMatchersSpec cfgDefault []).1).length = 0 := by
  constructor <;> rfl

/-- Claim C3 amended: the seed rule set is built by walking from the
traversal root itself up to the filesystem root (leaf-to-root order),
including the root's own ignore files, and those own files enter the active
rule set a second time through the per-directory extension performed when the
root is dequeued: for each respected dialect the matchers in force at the
root are seed ++ own = (own ++ ancestors) ++ own. -/
theorem claim_C3_seed_walk (cfg : Config)
    (anc : List (List Matcher × List Matcher)) (og od : List Matcher)
    (hg : cfg.respectGitignore = true) (hd : cfg.respectDir2textignore = true) :
    extendM cfg.respectGitignore (rootMatchers cfg ((og, od) :: anc)).1 og
        = (og ++ (anc.map Prod.fst).flatten) ++ og ∧
      extendM cfg.respectDir2textignore (rootMatchers cfg ((og, od) :: anc)).2 od
        = (od ++ (anc.map Prod.snd).flatten) ++ od := by
  unfold extendM rootMatchers
  rw [hg, hd]
  simp

theorem claim_C3_seed_walk_witness :
    cfgDefault.respectGitignore = true ∧ cfgDefault.respectDir2textignore = true ∧
      (extendM cfgDefault.respectGitignore
          (rootMatchers cfgDefault ((([mAlways], []) : List Matcher × List Matcher) ::
            [([mAlways], [mAlways])])).1 [mAlways]
          = (([mAlways] ++ ([([mAlways], [mAlways])].map Prod.fst).flatten) ++ [mAlways]) ∧
        extendM cfgDefault.respectDir2textignore
          (rootMatchers cfgDefault ((([mAlways], []) : List Matcher × List Matcher) ::
            [([mAlways], [mAlways])])).2 []
          = (([] ++ ([([mAlways], [mAlways])].map Prod.snd).flatten) ++ [])) :=
  ⟨rfl, rfl, claim_C3_seed_walk cfgDefault [([mAlways], [mAlways])] [mAlways] [] rfl rfl⟩

/-! Claim C5: the lock-file scenario. -/

/-- Claim C5 (as stated) is false: the lock-file gate tests
name.endswith of the lock suffix, and package-lock.json does not end with
that suffix, so with lock-file exclusion enabled and no other filters the
admitted list for a root holding package-lock.json and index.ts contains
both files, not index.ts only. -/
theorem claim_C5_counterexample :
    find_files_bfs cfgDefault "/r" [] true [] []
        [FSEntry.file "package-lock.json", FSEntry.file "index.ts"]
        = ["index.ts", "package-lock.json"] ∧
      find_files_bfs cfgDefault "/r" [] true [] []
        [FSEntry.file "package-lock.json", FSEntry.file "index.ts"]
        ≠ ["index.ts"] := by
  constructor
  · rfl
  · decide

/-- Claim C5 amended: the lock-file gate excludes exactly the files whose
names end in the lock suffix: alongside index.ts, a file named yarn.lock is
excluded and discovery admits index.ts only. -/
theorem claim_C5_lock_scenario :
    find_files_bfs cfgDefault "/r" [] true [] []
        [FSEntry.file "yarn.lock", FSEntry.file "index.ts"]
        = ["index.ts"] := by
  rfl

/-! Claim C9: path resolution. -/

/-- Claim C9: resolve_paths processes the specifications in input order; a
spec holding a wildcard metacharacter contributes exactly the filesystem
expansion of the pattern (zero entries when the glob matches nothing, and the
function is total, so no error is raised), while any other spec is appended
as a single literal entry with no filesystem consultation at all. -/
theorem claim_C9_resolution (globFn : String → List String) (paths : List String) :
    resolve_paths globFn paths
      = (paths.map fun p => if hasWildcard p then globFn p else [p]).flatten := by
  unfold resolve_paths
  suffices h : ∀ (ps : List String) (acc : List String),
      ps.foldl (fun acc p => acc ++ (if hasWildcard p then globFn p else [p])) acc
        = acc ++ (ps.map fun p => if hasWildcard p then globFn p else [p]).flatten by
    simpa using h paths []
  intro ps
  induction ps with
  | nil => simp
  | cons p ps ih =>
      intro acc
      simp [ih, List.append_assoc]

/-! Claim C4: the five file gates. -/

/-- Claim C4: a regular file reaching the file branch of the traversal is
admitted iff all five gates hold; the admission test is written exactly as
the source's ordered short-circuit chain, and this theorem proves that chain
equivalent to the conjunction of the five gates: (a) under lock-file
exclusion the name does not end with the lock suffix, (b) any configured
extension is a suffix of the name, (c) the include list is empty or some
include pattern matches the relative path, (d) no exclude pattern matches the
relative path, (e) the rule-set test is false for every respected dialect. -/
theorem claim_C4_file_gates (cfg : Config) (name relPath absPath : String)
    (git d2t : List Matcher) :
    admitFile cfg name relPath absPath git d2t = true ↔
      ((cfg.excludeLockFiles = true → strEndsWith name ".lock" = false) ∧
       (∀ e, cfg.extension = some e → strEndsWith name e = true) ∧
       (cfg.includePatterns = [] ∨
         ∃ pat ∈ cfg.includePatterns, fnmatch relPath pat = true) ∧
       (∀ pat ∈ cfg.excludePatterns, fnmatch relPath pat = false) ∧
       (cfg.respectGitignore = true → testDialect git absPath = false) ∧
       (cfg.respectDir2textignore = true → testDialect d2t absPath = false)) := by
  unfold admitFile
  split_ifs with h1 h2 h3 h4 h5
  · simp only [Bool.false_eq_true, false_iff]
    intro hc
    rw [Bool.and_eq_true] at h1
    have hf := hc.1 h1.1
    rw [h1.2] at hf
    exact Bool.noConfusion hf
  · simp only [Bool.false_eq_true, false_iff]
    intro hc
    cases hx : cfg.extension with
    | none => rw [hx] at h2; exact Bool.noConfusion h2
    | some e =>
        rw [hx] at h2
        have ht := hc.2.1 e hx
        simp only [extFails, ht] at h2
        exact Bool.noConfusion h2
  · simp only [Bool.false_eq_true, false_iff]
    intro hc
    rw [Bool.and_eq_true] at h3
    rcases hc.2.2.1 with hemp | ⟨pat, hmem, hp⟩
    · rw [hemp] at h3
      simp at h3
    · have hany : cfg.includePatterns.any (fun pat => fnmatch relPath pat) = true :=
        List.any_eq_true.mpr ⟨pat, hmem, hp⟩
      rw [hany] at h3
      simp at h3
  · simp only [Bool.false_eq_true, false_iff]
    intro hc
    obtain ⟨pat, hmem, hp⟩ := List.any_eq_true.mp h4
    have := hc.2.2.2.1 pat hmem
    rw [this] at hp
    exact Bool.noConfusion hp
  · simp only [Bool.false_eq_true, false_iff]
    intro hc
    unfold ignoredByRules at h5
    rw [Bool.or_eq_true, Bool.and_eq_true, Bool.and_eq_true] at h5
    rcases h5 with ⟨hR, ht⟩ | ⟨hR, ht⟩
    · have := hc.2.2.2.2.1 hR
      rw [this] at ht
      exact Bool.noConfusion ht
    · have := hc.2.2.2.2.2 hR
      rw [this] at ht
      exact Bool.noConfusion ht
  · simp only [true_iff]
    refine ⟨?_, ?_, ?_, ?_, ?_, ?_⟩
    · intro hL
      cases hS : strEndsWith name ".lock" with
      | false => rfl
      | true => exact absurd (by rw [hL, hS]; rfl) h1
    · intro e he
      cases hS : strEndsWith name e with
      | true => rfl
      | false =>
          exfalso
          apply h2
          simp [extFails, he, hS]
    · by_cases hemp : cfg.includePatterns = []
      · exact Or.inl hemp
      · right
        have hie : cfg.includePatterns.isEmpty = false := by
          cases hl : cfg.includePatterns with
          | nil => exact absurd hl hemp
          | cons a l => rfl
        cases hany : cfg.includePatterns.any (fun pat => fnmatch relPath pat) with
        | true => exact List.any_eq_true.mp hany
        | false =>
            exfalso
            apply h3
            rw [hie, hany]
            rfl
    · intro pat hmem
      cases hp : fnmatch relPath pat with
      | false => rfl
      | true =>
          exfalso
          apply h4
          exact List.any_eq_true.mpr ⟨pat, hmem, hp⟩
    · intro hR
      cases ht : testDialect git absPath with
      | false => rfl
      | true =>
          exfalso
          apply h5
          unfold ignoredByRules
          rw [hR, ht]
          rfl
    · intro hR
      cases ht : testDialect d2t absPath with
      | false => rfl
      | true =>
          exfalso
          apply h5
          unfold ignoredByRules
          rw [hR, ht]
          simp

/-! Claim C8: permission errors skip a subtree and nothing else. -/

theorem size_pos (e : FSEntry) : 1 ≤ FSEntry.size e := by
  cases e <;> simp [FSEntry.size]

theorem collect_pruneU_main :
    ∀ (N : Nat) (es : List FSEntry), sizeEntries es ≤ N →
      ∀ (cfg : Config) (rootAbs : String) (pfx : List String) (git d2t : List Matcher),
        collectEntries cfg rootAbs pfx git d2t (pruneUL es)
          = collectEntries cfg rootAbs pfx git d2t es := by
  intro N
  induction N with
  | zero =>
      intro es h cfg rootAbs pfx git d2t
      cases es with
      | nil => rfl
      | cons e es =>
          exfalso
          have := size_pos e
          simp only [sizeEntries] at h
          omega
  | succ n ih =>
      intro es h cfg rootAbs pfx git d2t
      cases es with
      | nil => rfl
      | cons e es =>
          have hpos := size_pos e
          simp only [sizeEntries] at h
          have hes : sizeEntries es ≤ n := by omega
          cases e with
          | file fn =>
              simp only [pruneUL, pruneU, collectEntries]
              rw [ih es hes]
          | dir dn r g d cs =>
              simp only [pruneUL, pruneU, collectEntries]
              rw [ih es hes]
              congr 1
              cases r with
              | false => simp [collectEntry]
              | true =>
                  simp only [if_pos]
                  simp only [collectEntry]
                  have hcs : sizeEntries cs ≤ n := by
                    simp only [FSEntry.size] at h
                    omega
                  rw [ih cs hcs]

/-- Claim C8: a permission error while listing a directory never escapes
discovery (the embedded traversal is total); the unreadable directory's
subtree contributes nothing, and the rest of the scan is untouched: erasing
everything below every unreadable directory (pruneUL) leaves the returned
admitted list unchanged, so the run completes with exactly the files admitted
elsewhere. -/
theorem claim_C8_permission_skip (cfg : Config) (rootAbs : String)
    (anc : List (List Matcher × List Matcher)) (rr : Bool)
    (rg rd : List Matcher) (cs : List FSEntry) :
    find_files_bfs cfg rootAbs anc rr rg rd (pruneUL cs)
      = find_files_bfs cfg rootAbs anc rr rg rd cs := by
  rw [find_eq_sorted_collect, find_eq_sorted_collect]
  congr 1
  simp only [taskCollect]
  split
  · exact collect_pruneU_main (sizeEntries cs) cs le_rfl cfg rootAbs [] _ _
  · rfl

/-! Claim C7: enumeration order does not matter. -/

theorem collect_equivL {l l' : List FSEntry} (h : EquivL l l') :
    ∀ (cfg : Config) (rootAbs : String) (pfx : List String) (git d2t : List Matcher),
      (collectEntries cfg rootAbs pfx git d2t l).Perm
        (collectEntries cfg rootAbs pfx git d2t l') := by
  induction h with
  | nil => intro cfg rootAbs pfx git d2t; exact List.Perm.refl _
  | file n hl ih =>
      intro cfg rootAbs pfx git d2t
      simp only [collectEntries]
      exact List.Perm.append (List.Perm.refl _) (ih cfg rootAbs pfx git d2t)
  | dir n r g d hcs hl ihcs ihl =>
      intro cfg rootAbs pfx git d2t
      simp only [collectEntries]
      apply List.Perm.append
      · simp only [collectEntry]
        split
        · exact List.Perm.refl _
        · split
          · exact List.Perm.refl _
          · split
            · exact ihcs cfg rootAbs (pfx ++ [n]) _ _
            · exact List.Perm.refl _
      · exact ihl cfg rootAbs pfx git d2t
  | swap a b l =>
      intro cfg rootAbs pfx git d2t
      simp only [collectEntries]
      rw [← List.append_assoc, ← List.append_assoc]
      exact List.perm_append_comm.append_right _
  | trans h1 h2 ih1 ih2 =>
      intro cfg rootAbs pfx git d2t
      exact (ih1 cfg rootAbs pfx git d2t).trans (ih2 cfg rootAbs pfx git d2t)

/-- Claim C7: discovery is deterministic over a fixed read-only filesystem
state: the embedded traversal is a pure function (repeated calls are
definitionally identical), and the returned ordered output is invariant under
every re-enumeration of the directory entries at every depth (EquivL), so it
does not depend on the order in which scandir lists entries. -/
theorem claim_C7_determinism (cfg : Config) (rootAbs : String)
    (anc : List (List Matcher × List Matcher)) (rr : Bool)
    (rg rd : List Matcher) {cs cs' : List FSEntry} (h : EquivL cs cs') :
    find_files_bfs cfg rootAbs anc rr rg rd cs
      = find_files_bfs cfg rootAbs anc rr rg rd cs' := by
  rw [find_eq_sorted_collect, find_eq_sorted_collect]
  apply sortedOut_perm
  simp only [taskCollect]
  split
  · exact collect_equivL h cfg rootAbs [] _ _
  · exact List.Perm.refl _

theorem claim_C7_determinism_witness :
    EquivL [FSEntry.file "b", FSEntry.file "a"] [FSEntry.file "a", FSEntry.file "b"] ∧
      find_files_bfs cfgDefault "/r" [] true [] [] [FSEntry.file "b", FSEntry.file "a"]
        = find_files_bfs cfgDefault "/r" [] true [] [] [FSEntry.file "a", FSEntry.file "b"] :=
  ⟨EquivL.swap _ _ _,
    claim_C7_determinism cfgDefault "/r" [] true [] [] (EquivL.swap _ _ _)⟩

/-! Claim C10: the lock-file gate touches files only. -/

theorem relString_cons₂ (c : String) {cs : List String} (h : cs ≠ []) :
    relString (c :: cs) = c ++ "/" ++ relString cs := by
  cases cs with
  | nil => exact absurd rfl h
  | cons d ds => rfl

theorem suffix_through_sep {u : List Char} (hu : '/' ∉ u) :
    ∀ (l r : List Char), u <:+ (l ++ '/' :: r) ↔ u <:+ r := by
  intro l
  induction l with
  | nil =>
      intro r
      rw [List.nil_append, List.suffix_cons_iff]
      constructor
      · rintro (rfl | h)
        · exact absurd (List.mem_cons_self _ _) hu
        · exact h
      · exact Or.inr
  | cons c l ih =>
      intro r
      rw [List.cons_append, List.suffix_cons_iff]
      constructor
      · rintro (h | h)
        · exfalso
          apply hu
          rw [h]
          exact List.mem_cons_of_mem _ (List.mem_append_right _ (List.mem_cons_self _ _))
        · exact (ih r).mp h
      · intro h
        exact Or.inr ((ih r).mpr h)

theorem strEndsWith_sep (c x : String) :
    strEndsWith (c ++ "/" ++ x) ".lock" = strEndsWith x ".lock" := by
  unfold strEndsWith
  have hdata : (c ++ "/" ++ x).data = c.data ++ '/' :: x.data := by
    rw [String.data_append, String.data_append]
    simp
  rw [hdata]
  rw [Bool.eq_iff_iff]
  rw [List.isSuffixOf_iff_suffix, List.isSuffixOf_iff_suffix]
  exact suffix_through_sep (by decide) c.data x.data

theorem relString_lock (A : List String) (n : String) :
    strEndsWith (relString (A ++ [n])) ".lock" = strEndsWith n ".lock" := by
  induction A with
  | nil => rfl
  | cons c A ih =>
      rw [List.cons_append, relString_cons₂ c (by simp), strEndsWith_sep, ih]

theorem ignoredByRules_lockFlag (cfg : Config) (b : Bool) (git d2t : List Matcher)
    (p : String) :
    ignoredByRules { cfg with excludeLockFiles := b } git d2t p
      = ignoredByRules cfg git d2t p := rfl

theorem lockFlag_respectGit (cfg : Config) (b : Bool) :
    ({ cfg with excludeLockFiles := b } : Config).respectGitignore
      = cfg.respectGitignore := rfl

theorem lockFlag_respectD2t (cfg : Config) (b : Bool) :
    ({ cfg with excludeLockFiles := b } : Config).respectDir2textignore
      = cfg.respectDir2textignore := rfl

theorem admitFile_lockSplit (cfg : Config) (n rel abs : String)
    (g d : List Matcher) :
    admitFile { cfg with excludeLockFiles := true } n rel abs g d
      = (admitFile { cfg with excludeLockFiles := false } n rel abs g d
          && !(strEndsWith n ".lock")) := by
  cases hS : strEndsWith n ".lock" <;>
    simp [admitFile, hS, extFails, ignoredByRules]

theorem collect_lockSplit :
    ∀ (N : Nat) (es : List FSEntry), sizeEntries es ≤ N →
      ∀ (cfg : Config) (rootAbs : String) (pfx : List String) (git d2t : List Matcher),
        collectEntries { cfg with excludeLockFiles := true } rootAbs pfx git d2t es
          = (collectEntries { cfg with excludeLockFiles := false } rootAbs pfx git d2t es).filter
              (fun comps => !(strEndsWith (comps.getLastD "") ".lock")) := by
  intro N
  induction N with
  | zero =>
      intro es h cfg rootAbs pfx git d2t
      cases es with
      | nil => rfl
      | cons e es =>
          exfalso
          have := size_pos e
          simp only [sizeEntries] at h
          omega
  | succ n ih =>
      intro es h cfg rootAbs pfx git d2t
      cases es with
      | nil => rfl
      | cons e es =>
          have hpos := size_pos e
          simp only [sizeEntries] at h
          have hes : sizeEntries es ≤ n := by omega
          simp only [collectEntries, List.filter_append]
          rw [ih es hes]
          congr 1
          cases e with
          | file fn =>
              simp only [collectEntry]
              rw [admitFile_lockSplit]
              cases hA : admitFile { cfg with excludeLockFiles := false } fn
                  (relString (pfx ++ [fn])) (joinPath rootAbs (pfx ++ [fn])) git d2t with
              | false => simp
              | true =>
                  simp only [Bool.true_and, List.filter_cons, List.getLastD_concat,
                    List.filter_nil]
                  cases hS : strEndsWith fn ".lock" <;> simp [hS]
          | dir dn r g2 d2 cs =>
              simp only [collectEntry, ignoredByRules_lockFlag, lockFlag_respectGit,
                lockFlag_respectD2t]
              have hcs : sizeEntries cs ≤ n := by
                simp only [FSEntry.size] at h
                omega
              split
              · simp
              · split
                · simp
                · split
                  · exact ih cs hcs cfg rootAbs (pfx ++ [dn]) _ _
                  · simp

theorem collect_nonempty :
    ∀ (N : Nat) (es : List FSEntry), sizeEntries es ≤ N →
      ∀ (cfg : Config) (rootAbs : String) (pfx : List String) (git d2t : List Matcher)
        (comps : List String),
        comps ∈ collectEntries cfg rootAbs pfx git d2t es → comps ≠ [] := by
  intro N
  induction N with
  | zero =>
      intro es h cfg rootAbs pfx git d2t comps hm
      cases es with
      | nil => simp [collectEntries] at hm
      | cons e es =>
          exfalso
          have := size_pos e
          simp only [sizeEntries] at h
          omega
  | succ n ih =>
      intro es h cfg rootAbs pfx git d2t comps hm
      cases es with
      | nil => simp [collectEntries] at hm
      | cons e es =>
          have hpos := size_pos e
          simp only [sizeEntries] at h
          have hes : sizeEntries es ≤ n := by omega
          simp only [collectEntries, List.mem_append] at hm
          rcases hm with hm | hm
          · cases e with
            | file fn =>
                simp only [collectEntry] at hm
                split at hm
                · simp only [List.mem_singleton] at hm
                  subst hm
                  simp
                · simp at hm
            | dir dn r g2 d2 cs =>
                simp only [collectEntry] at hm
                have hcs : sizeEntries cs ≤ n := by
                  simp only [FSEntry.size] at h
                  omega
                split at hm
                · simp at hm
                · split at hm
                  · simp at hm
                  · split at hm
                    · exact ih cs hcs cfg rootAbs (pfx ++ [dn]) _ _ comps hm
                    · simp at hm
          · exact ih es hes cfg rootAbs pfx git d2t comps hm

theorem sortedOut_filter_lock (rootAbs : String) (l : List (List String))
    (hne : ∀ comps ∈ l, comps ≠ []) :
    sortedOut rootAbs (l.filter (fun comps => !(strEndsWith (comps.getLastD "") ".lock")))
      = (sortedOut rootAbs l).filter (fun s => !(strEndsWith s ".lock")) := by
  haveI : IsTotal (List String) (pathKeyLe rootAbs) :=
    ⟨fun a b => by
      rw [pathKeyLe_iff, pathKeyLe_iff]
      exact le_total _ _⟩
  haveI : IsTrans (List String) (pathKeyLe rootAbs) :=
    ⟨fun a b c h₁ h₂ => by
      rw [pathKeyLe_iff] at h₁ h₂ ⊢
      exact le_trans h₁ h₂⟩
  conv_rhs => rw [sortedOut, List.filter_map]
  have hcong : (List.insertionSort (pathKeyLe rootAbs) l).filter
      ((fun s => !(strEndsWith s ".lock")) ∘ relString)
      = (List.insertionSort (pathKeyLe rootAbs) l).filter
        (fun comps => !(strEndsWith (comps.getLastD "") ".lock")) := by
    apply List.filter_congr
    intro comps hc
    have hmem : comps ∈ l := (List.mem_insertionSort _).mp hc
    have hne' := hne comps hmem
    obtain ⟨A, m, hAm⟩ : ∃ A m, comps = A ++ [m] :=
      ⟨comps.dropLast, comps.getLast hne', (List.dropLast_append_getLast hne').symm⟩
    subst hAm
    simp only [Function.comp_apply]
    rw [relString_lock, List.getLastD_concat]
  rw [hcong]
  apply List.eq_of_perm_of_sorted (r := fun a b : String => a ≤ b)
  · apply List.Perm.map
    exact (List.perm_insertionSort _ _).trans
      ((List.Perm.filter _ (List.perm_insertionSort _ l)).symm)
  · exact sortedOut_sorted rootAbs _
  · exact List.Pairwise.map relString (fun _ _ h => relLe_of_keyLe rootAbs h)
      (List.Pairwise.filter _ (List.sorted_insertionSort (pathKeyLe rootAbs) l))

/-- Claim C10: the lock-file gate applies only to regular files.  Enabling
lock-file exclusion changes the admitted list exactly by dropping the entries
whose path string ends with the lock suffix: every directory, including one
whose own name ends with the lock suffix, is enqueued and descended exactly
as without the flag, so files below it that lack the suffix remain
admitted. -/
theorem claim_C10_lock_gate_files_only (cfg : Config) (rootAbs : String)
    (anc : List (List Matcher × List Matcher)) (rr : Bool)
    (rg rd : List Matcher) (cs : List FSEntry) :
    find_files_bfs { cfg with excludeLockFiles := true } rootAbs anc rr rg rd cs
      = (find_files_bfs { cfg with excludeLockFiles := false } rootAbs anc rr rg rd cs).filter
          (fun s => !(strEndsWith s ".lock")) := by
  rw [find_eq_sorted_collect, find_eq_sorted_collect]
  simp only [taskCollect]
  split
  · rw [collect_lockSplit (sizeEntries cs) cs le_rfl cfg rootAbs [] _ _]
    apply sortedOut_filter_lock
    intro comps hm
    exact collect_nonempty (sizeEntries cs) cs le_rfl _ rootAbs [] _ _ comps hm
  · rfl

/-! Structural facts about the collector, used by claims C1 and C6. -/

theorem wf_head {e : FSEntry} {es : List FSEntry} (h : wfEntries (e :: es) = true) :
    wfEntry e = true ∧ ((es.map FSEntry.name).contains e.name) = false ∧
      wfEntries es = true := by
  simp only [wfEntries, Bool.and_eq_true, Bool.not_eq_true'] at h
  exact ⟨h.1.1, h.1.2, h.2⟩

theorem wf_mem : ∀ {es : List FSEntry}, wfEntries es = true →
    ∀ {e : FSEntry}, e ∈ es → wfEntry e = true := by
  intro es
  induction es with
  | nil => intro _ e h; simp at h
  | cons e₀ es ih =>
      intro hwf e h
      obtain ⟨hwe, _, hwes⟩ := wf_head hwf
      rcases List.mem_cons.mp h with rfl | h
      · exact hwe
      · exact ih hwes h

theorem wfEntry_dir {n : String} {r : Bool} {g d : List Matcher} {cs : List FSEntry}
    (h : wfEntry (.dir n r g d cs) = true) :
    goodName n = true ∧ wfEntries cs = true := by
  simp only [wfEntry, Bool.and_eq_true] at h
  exact h

theorem wf_uniq : ∀ {es : List FSEntry}, wfEntries es = true →
    ∀ {e₁ e₂ : FSEntry}, e₁ ∈ es → e₂ ∈ es → e₁.name = e₂.name → e₁ = e₂ := by
  intro es
  induction es with
  | nil => intro _ e₁ e₂ h; simp at h
  | cons e es ih =>
      intro hwf e₁ e₂ h₁ h₂ hn
      obtain ⟨hwe, hnc, hwes⟩ := wf_head hwf
      rcases List.mem_cons.mp h₁ with rfl | hm₁ <;> rcases List.mem_cons.mp h₂ with rfl | hm₂
      · rfl
      · exfalso
        have hmem : e₁.name ∈ es.map FSEntry.name := List.mem_map.mpr ⟨e₂, hm₂, hn.symm⟩
        have hc : (es.map FSEntry.name).contains e₁.name = true := List.elem_iff.mpr hmem
        rw [hc] at hnc
        exact Bool.noConfusion hnc
      · exfalso
        have hmem : e₂.name ∈ es.map FSEntry.name := List.mem_map.mpr ⟨e₁, hm₁, hn⟩
        have hc : (es.map FSEntry.name).contains e₂.name = true := List.elem_iff.mpr hmem
        rw [hc] at hnc
        exact Bool.noConfusion hnc
      · exact ih hwes hm₁ hm₂ hn

theorem anyDir_exists {es : List FSEntry} {sname : String}
    (h : (es.any fun e => isDirEntry e && (FSEntry.name e == sname)) = true) :
    ∃ e ∈ es, isDirEntry e = true ∧ FSEntry.name e = sname := by
  obtain ⟨e, hm, he⟩ := List.any_eq_true.mp h
  rw [Bool.and_eq_true, beq_iff_eq] at he
  exact ⟨e, hm, he.1, he.2⟩

theorem findDirChild_mem : ∀ {es : List FSEntry} {c : String} {r2 : Bool}
    {g2 d2 : List Matcher} {cs2 : List FSEntry},
    findDirChild es c = some (r2, g2, d2, cs2) → (FSEntry.dir c r2 g2 d2 cs2) ∈ es := by
  intro es
  induction es with
  | nil =>
      intro c r2 g2 d2 cs2 h
      simp [findDirChild] at h
  | cons e es ih =>
      intro c r2 g2 d2 cs2 h
      cases e with
      | file n =>
          simp only [findDirChild] at h
          exact List.mem_cons_of_mem _ (ih h)
      | dir n r g d cs =>
          simp only [findDirChild] at h
          split at h
          · simp only [Option.some.injEq, Prod.mk.injEq] at h
            obtain ⟨rfl, rfl, rfl, rfl⟩ := h
            rename_i hn
            subst hn
            exact List.mem_cons_self _ _
          · exact List.mem_cons_of_mem _ (ih h)

theorem mem_collect_split {cfg : Config} {rootAbs : String} {pfx : List String}
    {git d2t : List Matcher} :
    ∀ {es : List FSEntry} {comps : List String},
      comps ∈ collectEntries cfg rootAbs pfx git d2t es →
      ∃ e ∈ es, comps ∈ collectEntry cfg rootAbs pfx git d2t e := by
  intro es
  induction es with
  | nil => intro comps h; simp [collectEntries] at h
  | cons e es ih =>
      intro comps h
      simp only [collectEntries, List.mem_append] at h
      rcases h with h | h
      · exact ⟨e, List.mem_cons_self _ _, h⟩
      · obtain ⟨e', hm, hc⟩ := ih h
        exact ⟨e', List.mem_cons_of_mem _ hm, hc⟩

theorem collect_shape :
    ∀ (N : Nat) (es : List FSEntry), sizeEntries es ≤ N →
      ∀ (cfg : Config) (rootAbs : String) (pfx : List String) (git d2t : List Matcher)
        (comps : List String), comps ∈ collectEntries cfg rootAbs pfx git d2t es →
        ∃ e ∈ es, ∃ rest, comps = pfx ++ e.name :: rest := by
  intro N
  induction N with
  | zero =>
      intro es h cfg rootAbs pfx git d2t comps hm
      cases es with
      | nil => simp [collectEntries] at hm
      | cons e es =>
          exfalso
          have := size_pos e
          simp only [sizeEntries] at h
          omega
  | succ n ih =>
      intro es h cfg rootAbs pfx git d2t comps hm
      cases es with
      | nil => simp [collectEntries] at hm
      | cons e es =>
          have hpos := size_pos e
          simp only [sizeEntries] at h
          have hes : sizeEntries es ≤ n := by omega
          simp only [collectEntries, List.mem_append] at hm
          rcases hm with hm | hm
          · cases e with
            | file fn =>
                simp only [collectEntry] at hm
                split at hm
                · simp only [List.mem_singleton] at hm
                  exact ⟨.file fn, List.mem_cons_self _ _, [], by rw [hm]; rfl⟩
                · simp at hm
            | dir dn r g2 d2 cs =>
                simp only [collectEntry] at hm
                have hcs : sizeEntries cs ≤ n := by
                  simp only [FSEntry.size] at h
                  omega
                split at hm
                · simp at hm
                · split at hm
                  · simp at hm
                  · split at hm
                    · obtain ⟨e', _, rest', heq⟩ :=
                        ih cs hcs cfg rootAbs (pfx ++ [dn]) _ _ comps hm
                      refine ⟨.dir dn r g2 d2 cs, List.mem_cons_self _ _,
                        e'.name :: rest', ?_⟩
                      rw [heq]
                      simp [FSEntry.name]
                    · simp at hm
          · obtain ⟨e', hm', rest', heq⟩ := ih es hes cfg rootAbs pfx git d2t comps hm
            exact ⟨e', List.mem_cons_of_mem _ hm', rest', heq⟩

theorem collectEntry_shape {cfg : Config} {rootAbs : String} {pfx : List String}
    {git d2t : List Matcher} {e : FSEntry} {comps : List String}
    (hm : comps ∈ collectEntry cfg rootAbs pfx git d2t e) :
    ∃ rest, comps = pfx ++ e.name :: rest := by
  cases e with
  | file fn =>
      simp only [collectEntry] at hm
      split at hm
      · simp only [List.mem_singleton] at hm
        exact ⟨[], by rw [hm]; rfl⟩
      · simp at hm
  | dir dn r g2 d2 cs =>
      simp only [collectEntry] at hm
      split at hm
      · simp at hm
      · split at hm
        · simp at hm
        · split at hm
          · obtain ⟨e', _, rest', heq⟩ :=
              collect_shape (sizeEntries cs) cs le_rfl _ _ _ _ _ _ hm
            refine ⟨e'.name :: rest', ?_⟩
            rw [heq]
            simp [FSEntry.name]
          · simp at hm

theorem collect_good :
    ∀ (N : Nat) (es : List FSEntry), sizeEntries es ≤ N →
      ∀ (cfg : Config) (rootAbs : String) (pfx : List String) (git d2t : List Matcher)
        (comps : List String),
        wfEntries es = true → (∀ x ∈ pfx, goodName x = true) →
        comps ∈ collectEntries cfg rootAbs pfx git d2t es →
        ∀ x ∈ comps, goodName x = true := by
  intro N
  induction N with
  | zero =>
      intro es h cfg rootAbs pfx git d2t comps _ _ hm
      cases es with
      | nil => simp [collectEntries] at hm
      | cons e es =>
          exfalso
          have := size_pos e
          simp only [sizeEntries] at h
          omega
  | succ n ih =>
      intro es h cfg rootAbs pfx git d2t comps hwf hpfx hm
      cases es with
      | nil => simp [collectEntries] at hm
      | cons e es =>
          have hpos := size_pos e
          simp only [sizeEntries] at h
          have hes : sizeEntries es ≤ n := by omega
          obtain ⟨hwe, _, hwes⟩ := wf_head hwf
          simp only [collectEntries, List.mem_append] at hm
          rcases hm with hm | hm
          · cases e with
            | file fn =>
                simp only [collectEntry] at hm
                split at hm
                · simp only [List.mem_singleton] at hm
                  subst hm
                  intro x hx
                  rcases List.mem_append.mp hx with hx | hx
                  · exact hpfx x hx
                  · simp only [List.mem_singleton] at hx
                    subst hx
                    simpa [wfEntry] using hwe
                · simp at hm
            | dir dn r g2 d2 cs =>
                simp only [collectEntry] at hm
                have hcs : sizeEntries cs ≤ n := by
                  simp only [FSEntry.size] at h
                  omega
                obtain ⟨hgood, hwcs⟩ := wfEntry_dir hwe
                split at hm
                · simp at hm
                · split at hm
                  · simp at hm
                  · split at hm
                    · refine ih cs hcs cfg rootAbs (pfx ++ [dn]) _ _ comps hwcs ?_ hm
                      intro x hx
                      rcases List.mem_append.mp hx with hx | hx
                      · exact hpfx x hx
                      · simp only [List.mem_singleton] at hx
                        subst hx
                        exact hgood
                    · simp at hm
          · exact ih es hes cfg rootAbs pfx git d2t comps hwes hpfx hm

theorem collect_nodup :
    ∀ (N : Nat) (es : List FSEntry), sizeEntries es ≤ N →
      ∀ (cfg : Config) (rootAbs : String) (pfx : List String) (git d2t : List Matcher),
        wfEntries es = true →
        (collectEntries cfg rootAbs pfx git d2t es).Nodup := by
  intro N
  induction N with
  | zero =>
      intro es h cfg rootAbs pfx git d2t _
      cases es with
      | nil => simp [collectEntries]
      | cons e es =>
          exfalso
          have := size_pos e
          simp only [sizeEntries] at h
          omega
  | succ n ih =>
      intro es h cfg rootAbs pfx git d2t hwf
      cases es with
      | nil => simp [collectEntries]
      | cons e es =>
          have hpos := size_pos e
          simp only [sizeEntries] at h
          have hes : sizeEntries es ≤ n := by omega
          obtain ⟨hwe, hnc, hwes⟩ := wf_head hwf
          simp only [collectEntries]
          rw [List.nodup_append]
          refine ⟨?_, ih es hes cfg rootAbs pfx git d2t hwes, ?_⟩
          · cases e with
            | file fn =>
                simp only [collectEntry]
                split
                · simp
                · simp
            | dir dn r g2 d2 cs =>
                simp only [collectEntry]
                have hcs : sizeEntries cs ≤ n := by
                  simp only [FSEntry.size] at h
                  omega
                obtain ⟨_, hwcs⟩ := wfEntry_dir hwe
                split
                · simp
                · split
                  · simp
                  · split
                    · exact ih cs hcs cfg rootAbs (pfx ++ [dn]) _ _ hwcs
                    · simp
          · intro comps hL hR
            obtain ⟨rest, hshape⟩ := collectEntry_shape hL
            obtain ⟨e', hm', rest', hshape'⟩ :=
              collect_shape (sizeEntries es) es le_rfl cfg rootAbs pfx git d2t comps hR
            rw [hshape'] at hshape
            have := List.append_cancel_left hshape
            simp only [List.cons.injEq] at this
            have hname : e'.name = e.name := this.1
            have hmem : e.name ∈ es.map FSEntry.name :=
              List.mem_map.mpr ⟨e', hm', hname⟩
            have hc : (es.map FSEntry.name).contains e.name = true :=
              List.elem_iff.mpr hmem
            rw [hc] at hnc
            exact Bool.noConfusion hnc

/-! Character-level facts about separator-free names, for claims C1 and C6. -/

theorem goodName_data {s : String} (h : goodName s = true) :
    s.data ≠ [] ∧ '/' ∉ s.data := by
  unfold goodName at h
  rw [Bool.and_eq_true, Bool.not_eq_true', Bool.not_eq_true'] at h
  obtain ⟨h1, h2⟩ := h
  constructor
  · intro he
    have hs : s = "" := by
      apply String.toList_inj.mp
      simpa using he
    subst hs
    simp at h1
  · intro hm
    have hc : s.data.contains '/' = true := List.elem_iff.mpr hm
    rw [hc] at h2
    exact Bool.noConfusion h2

theorem data_append_slash (s t : String) :
    (s ++ "/" ++ t).data = s.data ++ '/' :: t.data := by
  rw [String.data_append, String.data_append]
  simp

theorem data_slash_end (s : String) : (s ++ "/").data = s.data ++ '/' :: [] := by
  rw [String.data_append]

theorem relSlash_cons (a : String) {A : List String} (h : A ≠ []) :
    relString (a :: A) ++ "/" = a ++ "/" ++ (relString A ++ "/") := by
  rw [relString_cons₂ a h, String.append_assoc, String.append_assoc]

theorem block_pre : ∀ (u : List Char), '/' ∉ u → ∀ (v : List Char), '/' ∉ v →
    ∀ (x y : List Char), (u ++ '/' :: x) <+: (v ++ '/' :: y) → u = v ∧ x <+: y := by
  intro u
  induction u with
  | nil =>
      intro _ v hv x y h
      cases v with
      | nil =>
          simp only [List.nil_append] at h
          rw [List.cons_prefix_cons] at h
          exact ⟨rfl, h.2⟩
      | cons c v' =>
          simp only [List.nil_append, List.cons_append] at h
          rw [List.cons_prefix_cons] at h
          exfalso
          apply hv
          rw [h.1]
          exact List.mem_cons_self _ _
  | cons a u' ih =>
      intro hu v hv x y h
      cases v with
      | nil =>
          simp only [List.cons_append, List.nil_append] at h
          rw [List.cons_prefix_cons] at h
          exfalso
          apply hu
          rw [← h.1]
          exact List.mem_cons_self _ _
      | cons b v' =>
          simp only [List.cons_append] at h
          rw [List.cons_prefix_cons] at h
          obtain ⟨hab, htail⟩ := h
          have hrec := ih (fun hm => hu (List.mem_cons_of_mem _ hm)) v'
            (fun hm => hv (List.mem_cons_of_mem _ hm)) x y htail
          exact ⟨by rw [hab, hrec.1], hrec.2⟩

theorem block_eq : ∀ (u : List Char), '/' ∉ u → ∀ (v : List Char), '/' ∉ v →
    ∀ (x y : List Char), u ++ '/' :: x = v ++ '/' :: y → u = v ∧ x = y := by
  intro u
  induction u with
  | nil =>
      intro _ v hv x y h
      cases v with
      | nil =>
          simp only [List.nil_append, List.cons.injEq] at h
          exact ⟨rfl, h.2⟩
      | cons c v' =>
          simp only [List.nil_append, List.cons_append, List.cons.injEq] at h
          exfalso
          apply hv
          rw [← h.1]
          exact List.mem_cons_self _ _
  | cons a u' ih =>
      intro hu v hv x y h
      cases v with
      | nil =>
          simp only [List.cons_append, List.nil_append, List.cons.injEq] at h
          exfalso
          apply hu
          rw [h.1]
          exact List.mem_cons_self _ _
      | cons b v' =>
          simp only [List.cons_append, List.cons.injEq] at h
          obtain ⟨hab, htail⟩ := h
          have hrec := ih (fun hm => hu (List.mem_cons_of_mem _ hm)) v'
            (fun hm => hv (List.mem_cons_of_mem _ hm)) x y htail
          exact ⟨by rw [hab, hrec.1], hrec.2⟩

theorem relString_inj : ∀ (A : List String), (∀ x ∈ A, goodName x = true) →
    ∀ (B : List String), (∀ x ∈ B, goodName x = true) →
    relString A = relString B → A = B := by
  intro A
  induction A with
  | nil =>
      intro _ B hB heq
      cases B with
      | nil => rfl
      | cons b B' =>
          exfalso
          obtain ⟨hbne, hbslash⟩ := goodName_data (hB b (List.mem_cons_self _ _))
          cases B' with
          | nil =>
              have := congrArg String.data heq
              simp only [relString] at this
              exact hbne this.symm
          | cons b2 B2 =>
              have hd := congrArg String.data heq
              rw [relString_cons₂ b (by simp)] at hd
              rw [data_append_slash] at hd
              simp only [relString] at hd
              simp at hd
  | cons a A' ih =>
      intro hA B hB heq
      obtain ⟨hane, haslash⟩ := goodName_data (hA a (List.mem_cons_self _ _))
      cases B with
      | nil =>
          exfalso
          cases A' with
          | nil =>
              have := congrArg String.data heq
              simp only [relString] at this
              exact hane this
          | cons a2 A2 =>
              have hd := congrArg String.data heq
              rw [relString_cons₂ a (by simp)] at hd
              rw [data_append_slash] at hd
              simp only [relString] at hd
              simp at hd
      | cons b B' =>
          obtain ⟨hbne, hbslash⟩ := goodName_data (hB b (List.mem_cons_self _ _))
          cases A' with
          | nil =>
              cases B' with
              | nil =>
                  simp only [relString] at heq
                  rw [heq]
              | cons b2 B2 =>
                  exfalso
                  have := congrArg String.data heq
                  rw [relString_cons₂ b (by simp), data_append_slash] at this
                  simp only [relString] at this
                  apply haslash
                  rw [this]
                  exact List.mem_append_right _ (List.mem_cons_self _ _)
          | cons a2 A2 =>
              cases B' with
              | nil =>
                  exfalso
                  have := congrArg String.data heq
                  rw [relString_cons₂ a (by simp), data_append_slash] at this
                  simp only [relString] at this
                  apply hbslash
                  rw [← this]
                  exact List.mem_append_right _ (List.mem_cons_self _ _)
              | cons b2 B2 =>
                  have hd := congrArg String.data heq
                  rw [relString_cons₂ a (by simp), relString_cons₂ b (by simp),
                    data_append_slash, data_append_slash] at hd
                  obtain ⟨h1, h2⟩ := block_eq a.data haslash b.data hbslash _ _ hd
                  have hab : a = b := String.toList_inj.mp h1
                  have htail : relString (a2 :: A2) = relString (b2 :: B2) :=
                    String.toList_inj.mp h2
                  have := ih (fun x hx => hA x (List.mem_cons_of_mem _ hx)) (b2 :: B2)
                    (fun x hx => hB x (List.mem_cons_of_mem _ hx)) htail
                  rw [hab, this]

theorem slash_pre : ∀ (A : List String), (∀ x ∈ A, goodName x = true) →
    ∀ (B : List String), (∀ x ∈ B, goodName x = true) →
    strHasPre (relString A ++ "/") (relString B) = true → A <+: B := by
  intro A
  induction A with
  | nil => intro _ B _ _; exact List.nil_prefix
  | cons a A' ih =>
      intro hA B hB hp
      obtain ⟨hane, haslash⟩ := goodName_data (hA a (List.mem_cons_self _ _))
      unfold strHasPre at hp
      rw [List.isPrefixOf_iff_prefix] at hp
      cases B with
      | nil =>
          exfalso
          obtain ⟨t, ht⟩ := hp
          simp only [relString] at ht
          have hne : ((relString (a :: A') ++ "/").data ++ t).length = 0 := by
            rw [ht]
            rfl
          rw [List.length_append, String.data_append, List.length_append] at hne
          simp at hne
      | cons b B' =>
          obtain ⟨hbne, hbslash⟩ := goodName_data (hB b (List.mem_cons_self _ _))
          cases B' with
          | nil =>
              exfalso
              obtain ⟨t, ht⟩ := hp
              apply hbslash
              cases A' with
              | nil =>
                  rw [data_slash_end] at ht
                  simp only [relString] at ht
                  rw [← ht]
                  refine List.mem_append_left _ ?_
                  exact List.mem_append_right _ (List.mem_cons_self _ _)
              | cons a2 A2 =>
                  rw [relSlash_cons a (by simp), data_append_slash] at ht
                  simp only [relString] at ht
                  rw [← ht]
                  refine List.mem_append_left _ ?_
                  exact List.mem_append_right _ (List.mem_cons_self _ _)
          | cons b2 B2 =>
              have hBdata : (relString (b :: b2 :: B2)).data
                  = b.data ++ '/' :: (relString (b2 :: B2)).data := by
                rw [relString_cons₂ b (by simp), data_append_slash]
              cases A' with
              | nil =>
                  rw [data_slash_end, hBdata] at hp
                  simp only [relString] at hp
                  obtain ⟨h1, _⟩ := block_pre a.data haslash b.data hbslash _ _ hp
                  have hab : a = b := String.toList_inj.mp h1
                  rw [hab]
                  rw [List.cons_prefix_cons]
                  exact ⟨rfl, List.nil_prefix⟩
              | cons a2 A2 =>
                  rw [relSlash_cons a (by simp), data_append_slash, hBdata] at hp
                  obtain ⟨h1, h2⟩ := block_pre a.data haslash b.data hbslash _ _ hp
                  have hab : a = b := String.toList_inj.mp h1
                  have htail : (a2 :: A2) <+: (b2 :: B2) := by
                    apply ih (fun x hx => hA x (List.mem_cons_of_mem _ hx)) (b2 :: B2)
                      (fun x hx => hB x (List.mem_cons_of_mem _ hx))
                    unfold strHasPre
                    rw [List.isPrefixOf_iff_prefix]
                    exact h2
                  rw [hab]
                  rw [List.cons_prefix_cons]
                  exact ⟨rfl, htail⟩

/-! Claim C1: pruning removes whole subtrees. -/

theorem c1_descend :
    ∀ (path : List String) (cfg : Config) (rootAbs : String)
      (git d2t : List Matcher) (readable : Bool) (ownGit ownD2t : List Matcher)
      (children : List FSEntry) (pfx : List String) (sname : String),
      wfEntries children = true →
      ignoredAt cfg rootAbs git d2t readable ownGit ownD2t children pfx path sname = true →
      ∀ comps ∈ taskCollect cfg rootAbs
          ⟨pfx, readable, ownGit, ownD2t, children, git, d2t⟩,
        ¬ (pfx ++ path ++ [sname]) <+: comps := by
  intro path
  induction path with
  | nil =>
      intro cfg rootAbs git d2t readable ownGit ownD2t children pfx sname hwf hig comps hm hpre
      cases readable with
      | false => simp [ignoredAt] at hig
      | true =>
          simp only [ignoredAt] at hig
          rw [Bool.and_eq_true] at hig
          obtain ⟨hany, hignored⟩ := hig
          have hm' : comps ∈ collectEntries cfg rootAbs pfx
              (extendM cfg.respectGitignore git ownGit)
              (extendM cfg.respectDir2textignore d2t ownD2t) children := by
            simpa [taskCollect] using hm
          obtain ⟨e, hmem, hce⟩ := mem_collect_split hm'
          obtain ⟨rest, hshape⟩ := collectEntry_shape hce
          rw [hshape] at hpre
          have hpre' : [sname] <+: e.name :: rest := by
            apply (List.prefix_append_right_inj pfx).mp
            simpa using hpre
          rw [List.cons_prefix_cons] at hpre'
          obtain ⟨hsn, _⟩ := hpre'
          obtain ⟨ed, hmd, hdir, hdname⟩ := anyDir_exists hany
          have hee : e = ed := wf_uniq hwf hmem hmd (by rw [← hsn, hdname])
          subst hee
          cases e with
          | file fn => simp [isDirEntry] at hdir
          | dir dn r2 g2 d2M cs2 =>
              have hdn : dn = sname := hdname
              simp only [collectEntry, FSEntry.name] at hce
              rw [hdn] at hce
              by_cases hgitname : sname = ".git"
              · rw [if_pos hgitname] at hce
                simp at hce
              · rw [if_neg hgitname, if_pos hignored] at hce
                simp at hce
  | cons c path' ih =>
      intro cfg rootAbs git d2t readable ownGit ownD2t children pfx sname hwf hig comps hm hpre
      cases readable with
      | false => simp [ignoredAt] at hig
      | true =>
          simp only [ignoredAt] at hig
          split at hig
          · exact Bool.noConfusion hig
          rename_i hcgit
          split at hig
          · exact Bool.noConfusion hig
          rename_i hcign
          split at hig
          · exact Bool.noConfusion hig
          rename_i r2 g2 d2M cs2 hfind
          have hm' : comps ∈ collectEntries cfg rootAbs pfx
              (extendM cfg.respectGitignore git ownGit)
              (extendM cfg.respectDir2textignore d2t ownD2t) children := by
            simpa [taskCollect] using hm
          obtain ⟨e, hmem, hce⟩ := mem_collect_split hm'
          obtain ⟨rest, hshape⟩ := collectEntry_shape hce
          rw [hshape] at hpre
          have hpre' : (c :: (path' ++ [sname])) <+: e.name :: rest := by
            apply (List.prefix_append_right_inj pfx).mp
            simpa using hpre
          rw [List.cons_prefix_cons] at hpre'
          obtain ⟨hcname, htailpre⟩ := hpre'
          have hmemd := findDirChild_mem hfind
          have hee : e = .dir c r2 g2 d2M cs2 :=
            wf_uniq hwf hmem hmemd (by rw [← hcname]; rfl)
          subst hee
          simp only [collectEntry, FSEntry.name] at hce
          rw [if_neg hcgit, if_neg hcign] at hce
          cases hr2 : r2 with
          | false =>
              rw [hr2] at hce
              simp at hce
          | true =>
              rw [hr2] at hig hce
              rw [if_pos rfl] at hce
              have hwcs := (wfEntry_dir (wf_mem hwf hmemd)).2
              refine (ih cfg rootAbs
                (extendM cfg.respectGitignore git ownGit)
                (extendM cfg.respectDir2textignore d2t ownD2t)
                true g2 d2M cs2 (pfx ++ [c]) sname hwcs hig comps ?_) ?_
              · simp only [taskCollect]
                rw [if_pos trivial]
                exact hce
              · have hr : (c :: (path' ++ [sname])) <+: (c :: rest) :=
                  List.cons_prefix_cons.mpr ⟨rfl, htailpre⟩
                have hstep := (List.prefix_append_right_inj pfx).mpr hr
                rw [hshape]
                simp only [FSEntry.name]
                simpa using hstep

theorem ignoredAt_good :
    ∀ (path : List String) (cfg : Config) (rootAbs : String)
      (git d2t : List Matcher) (readable : Bool) (ownGit ownD2t : List Matcher)
      (children : List FSEntry) (pfx : List String) (sname : String),
      wfEntries children = true →
      ignoredAt cfg rootAbs git d2t readable ownGit ownD2t children pfx path sname = true →
      ∀ x ∈ path ++ [sname], goodName x = true := by
  intro path
  induction path with
  | nil =>
      intro cfg rootAbs git d2t readable ownGit ownD2t children pfx sname hwf hig x hx
      cases readable with
      | false => simp [ignoredAt] at hig
      | true =>
          simp only [ignoredAt] at hig
          rw [Bool.and_eq_true] at hig
          obtain ⟨hany, _⟩ := hig
          obtain ⟨ed, hmd, hdir, hdname⟩ := anyDir_exists hany
          simp only [List.nil_append, List.mem_singleton] at hx
          subst hx
          cases ed with
          | file fn => simp [isDirEntry] at hdir
          | dir dn r2 g2 d2M cs2 =>
              have hdn : dn = x := hdname
              subst hdn
              exact (wfEntry_dir (wf_mem hwf hmd)).1
  | cons c path' ih =>
      intro cfg rootAbs git d2t readable ownGit ownD2t children pfx sname hwf hig x hx
      cases readable with
      | false => simp [ignoredAt] at hig
      | true =>
          simp only [ignoredAt] at hig
          split at hig
          · exact Bool.noConfusion hig
          rename_i hcgit
          split at hig
          · exact Bool.noConfusion hig
          rename_i hcign
          split at hig
          · exact Bool.noConfusion hig
          rename_i r2 g2 d2M cs2 hfind
          have hmemd := findDirChild_mem hfind
          have hwd := wfEntry_dir (wf_mem hwf hmemd)
          rcases List.mem_cons.mp (show x ∈ c :: (path' ++ [sname]) by simpa using hx)
            with rfl | hx'
          · exact hwd.1
          · exact ih cfg rootAbs _ _ r2 g2 d2M cs2 (pfx ++ [c]) sname hwd.2 hig x hx'

/-- Claim C1: a subdirectory that the active rule set of an enabled dialect
ignores at the moment its parent directory is processed is pruned before
enqueueing, and no file anywhere below it appears in the returned admitted
list (no output path extends the subdirectory's relative path), whatever the
other filter gates would have said about those files. -/
theorem claim_C1_pruned_subtree (cfg : Config) (rootAbs : String)
    (anc : List (List Matcher × List Matcher)) (rr : Bool)
    (rg rd : List Matcher) (cs : List FSEntry)
    (path : List String) (sname : String)
    (hwf : wfEntries cs = true)
    (hig : ignoredAt cfg rootAbs (rootMatchers cfg ((rg, rd) :: anc)).1
        (rootMatchers cfg ((rg, rd) :: anc)).2 rr rg rd cs [] path sname = true) :
    ∀ out ∈ find_files_bfs cfg rootAbs anc rr rg rd cs,
      strHasPre (relString (path ++ [sname]) ++ "/") out = false := by
  intro out hmem
  rw [mem_find] at hmem
  obtain ⟨comps, hc, rfl⟩ := hmem
  cases hp : strHasPre (relString (path ++ [sname]) ++ "/") (relString comps) with
  | false => rfl
  | true =>
      exfalso
      cases rr with
      | false => simp [ignoredAt] at hig
      | true =>
          have hc' : comps ∈ collectEntries cfg rootAbs []
              (extendM cfg.respectGitignore (rootMatchers cfg ((rg, rd) :: anc)).1 rg)
              (extendM cfg.respectDir2textignore (rootMatchers cfg ((rg, rd) :: anc)).2 rd)
              cs := by
            simpa [taskCollect] using hc
          have hgoodc : ∀ x ∈ comps, goodName x = true :=
            collect_good (sizeEntries cs) cs le_rfl _ _ _ _ _ _ hwf (by simp) hc'
          have hgoodp : ∀ x ∈ path ++ [sname], goodName x = true :=
            ignoredAt_good path _ _ _ _ _ _ _ _ _ _ hwf hig
          have hpre := slash_pre (path ++ [sname]) hgoodp comps hgoodc hp
          exact c1_descend path cfg rootAbs _ _ true rg rd cs [] sname hwf hig comps hc
            (by simpa using hpre)

theorem claim_C1_pruned_subtree_witness :
    wfEntries [FSEntry.dir "build" true [] [] [FSEntry.file "out.txt"],
        FSEntry.file "a.py"] = true ∧
      ignoredAt cfgDefault "/r"
        (rootMatchers cfgDefault (([fun p => p == "/r/build"], []) :: [])).1
        (rootMatchers cfgDefault (([fun p => p == "/r/build"], []) :: [])).2
        true [fun p => p == "/r/build"] []
        [FSEntry.dir "build" true [] [] [FSEntry.file "out.txt"], FSEntry.file "a.py"]
        [] [] "build" = true ∧
      ∀ out ∈ find_files_bfs cfgDefault "/r" [] true [fun p => p == "/r/build"] []
          [FSEntry.dir "build" true [] [] [FSEntry.file "out.txt"], FSEntry.file "a.py"],
        strHasPre (relString ([] ++ ["build"]) ++ "/") out = false :=
  ⟨by decide, by decide,
    claim_C1_pruned_subtree cfgDefault "/r" [] true [fun p => p == "/r/build"] []
      [FSEntry.dir "build" true [] [] [FSEntry.file "out.txt"], FSEntry.file "a.py"]
      [] "build" (by decide) (by decide)⟩

/-! Claim C6: the output order. -/

/-- Claim C6: the returned sequence is the admitted files' root-relative path
strings in strictly ascending lexicographic string order (character-by-
character code-point comparison, the separator comparing as its literal
character): the order is total over the output and no two distinct entries
compare equal. -/
theorem claim_C6_sorted_output (cfg : Config) (rootAbs : String)
    (anc : List (List Matcher × List Matcher)) (rr : Bool)
    (rg rd : List Matcher) (cs : List FSEntry) (hwf : wfEntries cs = true) :
    List.Sorted (· < ·) (find_files_bfs cfg rootAbs anc rr rg rd cs) := by
  rw [find_eq_sorted_collect]
  cases rr with
  | false =>
      simp [taskCollect, sortedOut]
  | true =>
      have hTC : taskCollect cfg rootAbs
          ⟨[], true, rg, rd, cs, (rootMatchers cfg ((rg, rd) :: anc)).1,
            (rootMatchers cfg ((rg, rd) :: anc)).2⟩
          = collectEntries cfg rootAbs []
              (extendM cfg.respectGitignore (rootMatchers cfg ((rg, rd) :: anc)).1 rg)
              (extendM cfg.respectDir2textignore (rootMatchers cfg ((rg, rd) :: anc)).2 rd)
              cs := by
        simp [taskCollect]
      rw [hTC]
      have hnodupL := collect_nodup (sizeEntries cs) cs le_rfl cfg rootAbs []
        (extendM cfg.respectGitignore (rootMatchers cfg ((rg, rd) :: anc)).1 rg)
        (extendM cfg.respectDir2textignore (rootMatchers cfg ((rg, rd) :: anc)).2 rd) hwf
      have hgood := collect_good (sizeEntries cs) cs le_rfl cfg rootAbs []
        (extendM cfg.respectGitignore (rootMatchers cfg ((rg, rd) :: anc)).1 rg)
        (extendM cfg.respectDir2textignore (rootMatchers cfg ((rg, rd) :: anc)).2 rd)
      have hsorted := sortedOut_sorted rootAbs (collectEntries cfg rootAbs []
        (extendM cfg.respectGitignore (rootMatchers cfg ((rg, rd) :: anc)).1 rg)
        (extendM cfg.respectDir2textignore (rootMatchers cfg ((rg, rd) :: anc)).2 rd) cs)
      have hnodup : (sortedOut rootAbs (collectEntries cfg rootAbs []
          (extendM cfg.respectGitignore (rootMatchers cfg ((rg, rd) :: anc)).1 rg)
          (extendM cfg.respectDir2textignore (rootMatchers cfg ((rg, rd) :: anc)).2 rd)
          cs)).Nodup := by
        unfold sortedOut
        apply List.Nodup.map_on
        · intro x hx y hy hxy
          have hx' := (List.mem_insertionSort _).mp hx
          have hy' := (List.mem_insertionSort _).mp hy
          exact relString_inj x (fun z hz => hgood x hwf (by simp) hx' z hz) y
            (fun z hz => hgood y hwf (by simp) hy' z hz) hxy
        · exact ((List.perm_insertionSort _ _).nodup_iff).mpr hnodupL
      exact List.Pairwise.imp (fun h => lt_of_le_of_ne h.1 h.2)
        (List.Pairwise.and hsorted hnodup)

theorem claim_C6_sorted_output_witness :
    wfEntries [FSEntry.file "b.txt", FSEntry.file "a.txt"] = true ∧
      List.Sorted (· < ·) (find_files_bfs cfgDefault "/r" [] true [] []
        [FSEntry.file "b.txt", FSEntry.file "a.txt"]) :=
  ⟨by decide,
    claim_C6_sorted_output cfgDefault "/r" [] true [] []
      [FSEntry.file "b.txt", FSEntry.file "a.txt"] (by decide)⟩

end Dir2Text
